import Mathlib

/-!
Verification of the Ash-spider crawler pipeline (idealo / kleineskraftwerk /
priwatt crawlers) against its natural-language specification.

The Python sources are shallowly embedded: pure text-normalisation functions
become Lean functions on `List Char` (with `String` wrappers), BeautifulSoup
selector results are represented by small structures holding exactly the
pieces of the DOM that each parser inspects, and the async fan-out over
detail pages becomes an explicit function over a list of fetch outcomes.
Numbers are modelled with exact integer-pair rationals (`num/den`, `den > 0`
by construction); the Python originals use binary floats and `decimal`,
which agree with the exact model on all inputs considered here.
-/

set_option autoImplicit false

namespace AshSpider

/-! ### Character classes (ASCII model of the Python predicates) -/

/-- Model of the whitespace class used by Python `str.strip` and regex `\s`
(restricted to the usual ASCII whitespace plus no-break space). -/
def isWs (c : Char) : Bool :=
  c = ' ' ∨ c = '\t' ∨ c = '\n' ∨ c = '\r' ∨ c = '\x0b' ∨ c = '\x0c' ∨ c = '\u00A0'

def isDigitC (c : Char) : Bool :=
  '0' ≤ c ∧ c ≤ '9'

def isAlphaC (c : Char) : Bool :=
  ('a' ≤ c ∧ c ≤ 'z') ∨ ('A' ≤ c ∧ c ≤ 'Z')

/-- Regex word character `[A-Za-z0-9_]`, used for `\b` boundaries. -/
def isWordC (c : Char) : Bool :=
  isAlphaC c ∨ isDigitC c ∨ c = '_'

/-- Model of Python `str.lower` on a single character (ASCII range). -/
def lowerChar (c : Char) : Char :=
  if 'A' ≤ c ∧ c ≤ 'Z' then Char.ofNat (c.toNat + 32) else c

/-! ### List-of-characters utilities shared by the normalisers -/

/-- Python `str.strip()`: drop leading and trailing whitespace. -/
def stripL (l : List Char) : List Char :=
  ((l.dropWhile isWs).reverse.dropWhile isWs).reverse

def stripS (s : String) : String :=
  ⟨stripL s.data⟩

/-- Python `str.split(sep)` for a one-character separator (keeps empty parts). -/
def splitOnChar (sep : Char) : List Char → List (List Char)
  | [] => [[]]
  | x :: xs =>
    let r := splitOnChar sep xs
    if x = sep then [] :: r
    else
      match r with
      | [] => [[x]]
      | h :: t => (x :: h) :: t

/-- Python substring test `pat in s`. -/
def containsSub (pat : List Char) : List Char → Bool
  | [] => pat.isEmpty
  | c :: t => pat.isPrefixOf (c :: t) || containsSub pat t

/-! ### clean_merchant_name (src/crawlers/idealo.py lines 114-143) -/

/-- The `unwanted_suffixes` list of `clean_merchant_name`. -/
def unwantedSuffixes : List (List Char) :=
  ["de", "com", "net", "org", "eu", "uk", "us", "ca", "au",
   "media", "shop", "store", "market", "mall", "direct", "direkt",
   "online", "web", "site", "portal", "center", "group", "corp",
   "inc", "ltd", "gmbh", "ag", "kg", "co", "llc"].map String.data

/-- The separator list `['.', '-', '_', ' ']` of `clean_merchant_name`. -/
def merchantSeps : List Char := ['.', '-', '_', ' ']

/-- The separator loop of `clean_merchant_name`: try each separator in turn;
on the first separator present in the string whose split yields at least one
stripped, non-empty part outside `unwantedSuffixes`, return the first such
part; otherwise fall through to the next separator. -/
def merchantSepLoop (m : List Char) : List Char → Option (List Char)
  | [] => none
  | sep :: rest =>
    if sep ∈ m then
      let cleaned := ((splitOnChar sep m).map stripL).filter
        (fun p => p ≠ [] ∧ p ∉ unwantedSuffixes)
      match cleaned with
      | p :: _ => some p
      | [] => merchantSepLoop m rest
    else merchantSepLoop m rest

/-- `clean_merchant_name` (idealo.py): lowercase, strip, drop a leading
`www.`, then the separator loop; if no separator applies, return the string
itself unless it is a generic suffix. -/
def cleanMerchantNameL (x : List Char) : List Char :=
  if x = [] then []
  else
    let m0 := stripL (x.map lowerChar)
    let m := if ("www.".data).isPrefixOf m0 then m0.drop 4 else m0
    match merchantSepLoop m merchantSeps with
    | some p => p
    | none => if m ∈ unwantedSuffixes then [] else m

def cleanMerchantName (s : String) : String :=
  ⟨cleanMerchantNameL s.data⟩

/-! ### Exact decimal arithmetic

Python computes prices with `float` and `decimal.Decimal`.  We model the
values as exact fractions `(num : Int, den : Int)` with `den > 0` by
construction (dens are powers of ten or products of such), which coincides
with the Python results on the decimal-string inputs of this pipeline. -/

def digitVal (c : Char) : Nat := c.toNat - '0'.toNat

def digitsToNat (l : List Char) : Nat :=
  l.foldl (fun acc c => acc * 10 + digitVal c) 0

def digitChar (d : Nat) : Char :=
  match d with
  | 0 => '0' | 1 => '1' | 2 => '2' | 3 => '3' | 4 => '4'
  | 5 => '5' | 6 => '6' | 7 => '7' | 8 => '8' | 9 => '9'
  | _ => '0'

def natDigitsAux : Nat → Nat → List Char
  | 0, _ => []
  | _ + 1, 0 => []
  | fuel + 1, n => natDigitsAux fuel (n / 10) ++ [digitChar (n % 10)]

/-- Decimal digit string of a natural number (the digits of `str(n)`). -/
def natDigits (n : Nat) : List Char :=
  if n = 0 then ['0'] else natDigitsAux n n

/-- Two-digit zero-padded rendering of `n % 100` (Python `"%02d"` for the
fractional cents part). -/
def pad2 (n : Nat) : List Char :=
  [digitChar (n / 10 % 10), digitChar (n % 10)]

/-- Model of Python `float(s)` / `decimal.Decimal(s)` on the plain
decimal-literal fragment actually produced by this pipeline: optional
whitespace, optional sign, digits with at most one dot, at least one digit.
Returns the exact value as `(num, den)` with `den = 10 ^ #fractional-digits`.
(The exotic forms `float` also accepts — exponents, `inf`, underscores — do
not occur here.) -/
def parseNumCore (l : List Char) : Option (Int × Int) :=
  let d1 := l.takeWhile isDigitC
  let r := l.drop d1.length
  match r with
  | [] => if d1 = [] then none else some ((digitsToNat d1 : Int), 1)
  | '.' :: r2 =>
    let d2 := r2.takeWhile isDigitC
    if r2.drop d2.length ≠ [] then none
    else if d1 = [] ∧ d2 = [] then none
    else some ((digitsToNat (d1 ++ d2) : Int), (10 ^ d2.length : Nat))
  | _ => none

def parseNum (l : List Char) : Option (Int × Int) :=
  let t := stripL l
  match t with
  | '-' :: r => (parseNumCore r).map (fun p => (-p.1, p.2))
  | '+' :: r => parseNumCore r
  | _ => parseNumCore t

/-- Round-half-even of the fraction `n / d` (for `d > 0`): the rounding used
by Python `round`, float formatting and `Decimal.quantize`. -/
def rheND (n d : Int) : Int :=
  let f := Int.fdiv n d
  let r2 := 2 * (n - f * d)
  if r2 < d then f
  else if d < r2 then f + 1
  else if f % 2 = 0 then f else f + 1

/-- Render a signed cent count as a fixed two-decimal string, as Python
produces for both `f"{x:.2f}"` and `str` of a two-decimal `Decimal`. -/
def fmtCentsL (neg : Bool) (a : Nat) : List Char :=
  (if neg then ['-'] else []) ++ natDigits (a / 100) ++ '.' :: pad2 (a % 100)

/-- Model of `Decimal(value).quantize(Decimal('0.01'))` followed by string
formatting, for the exact value `n / d` (`d > 0`): round half-even to two
decimals; `InvalidOperation` (modelled as `none`) when the resulting
coefficient exceeds the default 28-digit context precision. -/
def pyQuantize2 (n d : Int) : Option (List Char) :=
  let m := rheND (n * 100) d
  let a := m.natAbs
  if 28 < (natDigits a).length then none
  else some (fmtCentsL (decide (n < 0)) a)

/-! ### Price text normalisers -/

/-- Strip the anchored `^\s*ab\s*` marker (kleineskraftwerk, `flags=IGNORECASE`;
also the idealo first substitution which allows `ao` — controlled by `seconds`,
the set of admissible second letters). If the marker is absent the string is
returned unchanged (including its leading whitespace, as `re.sub` does). -/
def stripLeadMarker (seconds : List Char) (l : List Char) : List Char :=
  let w := l.dropWhile isWs
  match w with
  | a :: b :: rest =>
    if (a = 'a' ∨ a = 'A') ∧ b ∈ seconds then rest.dropWhile isWs else l
  | _ => l

/-- Leftmost match of the kleineskraftwerk price regex `(\d+[\d\.]*,\d{2})`:
at the first digit position whose maximal digit-or-dot run is immediately
followed by a comma and two digits, return that whole matched substring.
(The regex engine cannot backtrack inside the run, because a shortened run
would have to match `,` against a digit or dot.) -/
def kkPriceSearch : List Char → Option (List Char)
  | [] => none
  | c :: cs =>
    if isDigitC c then
      let run := (c :: cs).takeWhile (fun d => isDigitC d ∨ d = '.')
      match (c :: cs).drop run.length with
      | ',' :: d1 :: d2 :: _ =>
        if isDigitC d1 ∧ isDigitC d2 then some (run ++ ',' :: [d1, d2])
        else kkPriceSearch cs
      | _ => kkPriceSearch cs
    else kkPriceSearch cs

/-- Leftmost match of `\d+`: the first maximal digit run. -/
def digitRunSearch : List Char → Option (List Char)
  | [] => none
  | c :: cs =>
    if isDigitC c then some ((c :: cs).takeWhile isDigitC)
    else digitRunSearch cs

/-- Preprocessing of `clean_price_text` (kleineskraftwerk.py lines 68-72):
strip the `ab` marker, remove the euro sign, strip whitespace. -/
def kkPricePre (l : List Char) : List Char :=
  stripL ((stripLeadMarker ['b', 'B'] l).filter (· ≠ '€'))

/-- `numeric.replace(".", "").replace(",", ".")`. -/
def dotNormalize (l : List Char) : List Char :=
  (l.filter (· ≠ '.')).map (fun c => if c = ',' then '.' else c)

/-- `clean_price_text` (kleineskraftwerk.py lines 68-88). -/
def kkCleanPriceTextL (l : List Char) : List Char :=
  if l = [] then []
  else
    let price := kkPricePre l
    match kkPriceSearch price with
    | some numeric =>
      let normalized := dotNormalize numeric
      match parseNum normalized with
      | some p =>
        match pyQuantize2 p.1 p.2 with
        | some out => out
        | none => normalized
      | none => normalized
    | none =>
      match digitRunSearch price with
      | some digits =>
        match parseNum digits with
        | some p =>
          match pyQuantize2 p.1 p.2 with
          | some out => out
          | none => digits
        | none => digits
      | none => price

def kkCleanPriceText (s : String) : String :=
  ⟨kkCleanPriceTextL s.data⟩

/-- `clean_price_text` (priwatt.py lines 36-54): strip the exact-case markers
`ab|Ab|AB`, drop `€`, map no-break spaces to spaces, strip; keep every digit,
dot and comma of the remainder; if a comma is present drop dots and turn
commas into dots, otherwise drop dots; quantize to two decimals, falling back
to the normalised digits on `InvalidOperation`. -/
def priwattCleanPriceTextL (l : List Char) : List Char :=
  if l = [] then []
  else
    let p0 := stripLeadMarker ['b'] l
    let p1 := stripL ((p0.filter (· ≠ '€')).map (fun c => if c = '\u00A0' then ' ' else c))
    let numericPart := p1.filter (fun c => isDigitC c ∨ c = '.' ∨ c = ',')
    if numericPart = [] then []
    else
      let normalized :=
        if ',' ∈ numericPart then dotNormalize numericPart
        else numericPart.filter (· ≠ '.')
      match parseNum normalized with
      | some p =>
        match pyQuantize2 p.1 p.2 with
        | some out => out
        | none => normalized
      | none => normalized

def priwattCleanPriceText (s : String) : String :=
  ⟨priwattCleanPriceTextL s.data⟩

/-! ### price_to_float and compute_discount_rate -/

/-- `price_to_float` (priwatt.py lines 57-63): `float(price)` directly. -/
def priwattPriceToFloat (s : String) : Option (Int × Int) :=
  if s = "" then none else parseNum s.data

/-- `price_to_float` (kleineskraftwerk.py lines 91-98): every dot removed,
commas turned into dots, then `float`. -/
def kkPriceToFloat (s : String) : Option (Int × Int) :=
  if s = "" then none else parseNum (dotNormalize s.data)

/-- `f"{rate:.2f}%"` for the exact rate `((a - b) / a) * 100` with
`a = an/ad`, `b = bn/bd` (only evaluated when `a > 0`). -/
def fmtRate (an ad bn bd : Int) : String :=
  let rn := (an * bd - bn * ad) * 100
  let rd := an * bd
  ⟨fmtCentsL (decide (rn < 0)) (rheND (rn * 100) rd).natAbs ++ ['%']⟩

/-- `compute_discount_rate` assembled from a parser: empty string unless both
prices parse and the original is positive. Shared body of the
kleineskraftwerk and priwatt versions, which differ only in `price_to_float`. -/
def computeDiscountRateWith (ptf : String → Option (Int × Int))
    (origPrice discPrice : String) : String :=
  match ptf origPrice, ptf discPrice with
  | some a, some b => if a.1 ≤ 0 then "" else fmtRate a.1 a.2 b.1 b.2
  | _, _ => ""

/-- `compute_discount_rate` (kleineskraftwerk.py lines 101-107). -/
def kkComputeDiscountRate (o d : String) : String :=
  computeDiscountRateWith kkPriceToFloat o d

/-- `compute_discount_rate` (priwatt.py lines 66-72). -/
def priwattComputeDiscountRate (o d : String) : String :=
  computeDiscountRateWith priwattPriceToFloat o d

/-- Modelled from the spec: `computeDiscountRate` as §4.1 and §8 word it —
given the parsed decimal values, empty string unless both parse and the
original is positive, else `round((original-discounted)/original*100, 2)`
formatted with two decimal places and a trailing `%`. -/
def computeDiscountRateSpec (o d : Option (Int × Int)) : String :=
  match o, d with
  | some a, some b => if a.1 ≤ 0 then "" else fmtRate a.1 a.2 b.1 b.2
  | _, _ => ""

/-! ### URL machinery (urllib model for the pieces the crawlers use) -/

def splitFirst (sep : Char) : List Char → List Char × Option (List Char)
  | [] => ([], none)
  | c :: t =>
    if c = sep then ([], some t)
    else
      let r := splitFirst sep t
      (c :: r.1, r.2)

def hexVal (c : Char) : Option Nat :=
  if isDigitC c then some (c.toNat - '0'.toNat)
  else if 'a' ≤ c ∧ c ≤ 'f' then some (c.toNat - 'a'.toNat + 10)
  else if 'A' ≤ c ∧ c ≤ 'F' then some (c.toNat - 'A'.toNat + 10)
  else none

/-- Percent-decoding as in `urllib.parse.unquote`, modelled on the ASCII
range (multi-byte UTF-8 percent sequences do not occur in this pipeline and
are left undecoded by the model). -/
def pctDecodeAux : Nat → List Char → List Char
  | 0, l => l
  | _ + 1, [] => []
  | fuel + 1, '%' :: a :: b :: rest2 =>
    (match hexVal a, hexVal b with
     | some x, some y =>
       if 16 * x + y < 128 then Char.ofNat (16 * x + y) :: pctDecodeAux fuel rest2
       else '%' :: a :: b :: pctDecodeAux fuel rest2
     | _, _ => '%' :: pctDecodeAux fuel (a :: b :: rest2))
  | fuel + 1, c :: rest => c :: pctDecodeAux fuel rest

def pctDecode (l : List Char) : List Char :=
  pctDecodeAux l.length l

/-- `urllib.parse.unquote_plus` (used inside `parse_qs`). -/
def unquotePlus (l : List Char) : List Char :=
  pctDecode (l.map (fun c => if c = '+' then ' ' else c))

/-- `urllib.parse.unquote` (applied a second time by the crawler). -/
def pyUnquote (l : List Char) : List Char :=
  pctDecode l

structure UrlSplitResult where
  scheme : List Char
  netloc : List Char
  path : List Char
  query : List Char
  fragment : List Char

def isSchemeChar (c : Char) : Bool :=
  isAlphaC c ∨ isDigitC c ∨ c = '+' ∨ c = '-' ∨ c = '.'

/-- Model of `urllib.parse.urlsplit`: scheme before the first `:` when it is
a letter-led run of scheme characters; netloc after `//` up to the first of
`/?#`; then the fragment after the first `#`, then the query after the first
`?`. -/
def urlsplitL (l : List Char) : UrlSplitResult :=
  let sc := splitFirst ':' l
  let hasScheme : Bool :=
    match sc.2, sc.1 with
    | some _, c :: rest => isAlphaC c && (c :: rest).all isSchemeChar
    | _, _ => false
  let scheme := if hasScheme then sc.1.map lowerChar else []
  let u1 := if hasScheme then sc.2.getD [] else l
  let hasNetloc := ("//".data).isPrefixOf u1
  let netloc :=
    if hasNetloc then (u1.drop 2).takeWhile (fun c => ¬(c = '/' ∨ c = '?' ∨ c = '#'))
    else []
  let u2 := if hasNetloc then (u1.drop 2).drop netloc.length else u1
  let fr := splitFirst '#' u2
  let qu := splitFirst '?' fr.1
  ⟨scheme, netloc, qu.1, qu.2.getD [], fr.2.getD []⟩

/-- `urllib.parse.parse_qs` with default arguments: split the query on `&`,
keep only `name=value` pairs with a non-empty value, unquote-plus both. -/
def parseQsl (q : List Char) : List (List Char × List Char) :=
  (splitOnChar '&' q).filterMap (fun pair =>
    let nv := splitFirst '=' pair
    match nv.2 with
    | some v => if v = [] then none else some (unquotePlus nv.1, unquotePlus v)
    | none => none)

/-- `q[key][0]` of the `parse_qs` result: the first value bound to `key`. -/
def qsLookup (key : List Char) (q : List (List Char × List Char)) : Option (List Char) :=
  (q.find? (fun p => p.1 == key)).map (·.2)

/-- `resolve_idealo_redirect` (idealo.py lines 53-68). -/
def resolveIdealoRedirectL (url : List Char) : List Char :=
  let parsed := urlsplitL url
  if containsSub "idealo.".data parsed.netloc ∧
      (containsSub "/relocator/relocate".data parsed.path ∨
       containsSub "/Redirect".data parsed.path) then
    let q := parseQsl parsed.query
    match qsLookup "targetUrl".data q with
    | some v => pyUnquote v
    | none =>
      match qsLookup "url".data q with
      | some v => pyUnquote v
      | none =>
        match qsLookup "redirectUrl".data q with
        | some v => pyUnquote v
        | none => url
  else url

def resolveIdealoRedirect (s : String) : String :=
  ⟨resolveIdealoRedirectL s.data⟩

/-- Suffix of a netloc after its last `@` (userinfo removal of `.hostname`). -/
def afterLastAt (l : List Char) : List Char :=
  ((l.reverse.takeWhile (· ≠ '@'))).reverse

/-- `extract_host` (idealo.py lines 71-78): lowercase hostname, port and
userinfo dropped, leading `www.` stripped. -/
def extractHostL (url : List Char) : List Char :=
  if url = [] then []
  else
    let netloc := (urlsplitL url).netloc
    let host := ((afterLastAt netloc).takeWhile (· ≠ ':')).map lowerChar
    if ("www.".data).isPrefixOf host then host.drop 4 else host

def extractHost (s : String) : String :=
  ⟨extractHostL s.data⟩

/-- Directory part of a path: everything up to and including the last `/`
(`/` itself when the path has none). -/
def dirOfPath (p : List Char) : List Char :=
  let rev := p.reverse.dropWhile (· ≠ '/')
  if rev = [] then ['/'] else rev.reverse

/-- Model of `urllib.parse.urljoin` for the reference shapes this crawler
produces: absolute URLs, scheme-relative `//…`, root-relative `/…` and plain
relative paths (without `..` normalisation, which never occurs here). -/
def urljoinL (base rel : List Char) : List Char :=
  if rel = [] then base
  else
    let pb := urlsplitL base
    let pr := urlsplitL rel
    if pr.scheme ≠ [] then rel
    else if ("//".data).isPrefixOf rel then pb.scheme ++ ':' :: rel
    else if rel.head? = some '/' then pb.scheme ++ "://".data ++ pb.netloc ++ rel
    else pb.scheme ++ "://".data ++ pb.netloc ++ dirOfPath pb.path ++ rel

def urljoinS (base rel : String) : String :=
  ⟨urljoinL base.data rel.data⟩

/-- `to_absolute` (idealo.py lines 44-50). -/
def toAbsolute (s : String) : String :=
  if s = "" then ""
  else if ("http".data).isPrefixOf s.data then s
  else urljoinS "https://www.idealo.de" s

/-! ### idealo price/merchant text helpers -/

/-- Scan of `\b(?:ab|ao)\s*([\d\.\,]+)\s*€` (idealo `parse_price_from_text`):
at each boundary-preceded `ab`/`ao` (case-insensitive), skip whitespace, take
the maximal digit/dot/comma run, skip whitespace, and require `€`; the
captured group is the run. -/
def priceFromScan : Bool → List Char → Option (List Char)
  | _, [] => none
  | _, [_] => none
  | prevW, a :: b :: rest =>
    let attempt :=
      if ¬prevW ∧ (a = 'a' ∨ a = 'A') ∧ (b = 'b' ∨ b = 'B' ∨ b = 'o' ∨ b = 'O') then
        let afterWs := rest.dropWhile isWs
        let grp := afterWs.takeWhile (fun c => isDigitC c ∨ c = '.' ∨ c = ',')
        let tl := (afterWs.drop grp.length).dropWhile isWs
        if grp ≠ [] ∧ tl.head? = some '€' then some grp else none
      else none
    match attempt with
    | some g => some g
    | none => priceFromScan (isWordC a) (b :: rest)

/-- `parse_price_from_text` (idealo.py lines 95-102). -/
def parsePriceFromText (s : String) : String :=
  if s = "" then ""
  else
    match priceFromScan false s.data with
    | some g => ⟨g ++ [' ', '€']⟩
    | none => ""

/-- The repeated substitution `\b(ab|ao)\b\s*` of idealo `clean_price`
(case-insensitive, all occurrences, left to right).  Fuel-driven so that the
definition stays kernel-computable; the fuel is the input length, which
bounds the number of steps. -/
def wordMarkerSubAux : Nat → Bool → List Char → List Char
  | 0, _, l => l
  | _ + 1, _, [] => []
  | _ + 1, _, [c] => [c]
  | fuel + 1, prevW, a :: b :: rest =>
    if ¬prevW ∧ (a = 'a' ∨ a = 'A') ∧ (b = 'b' ∨ b = 'B' ∨ b = 'o' ∨ b = 'O') ∧
        (match rest with | [] => true | c :: _ => !isWordC c) = true then
      let ws := rest.takeWhile isWs
      wordMarkerSubAux fuel ws.isEmpty (rest.drop ws.length)
    else a :: wordMarkerSubAux fuel (isWordC a) (b :: rest)

/-- `clean_price` (idealo.py lines 105-111): strip an anchored `ab`/`ao`
marker, erase remaining word-bounded `ab`/`ao` markers with their trailing
whitespace, then strip. -/
def idealoCleanPrice (s : String) : String :=
  if s = "" then ""
  else
    let t1 := stripLeadMarker ['b', 'B', 'o', 'O'] s.data
    let t2 := wordMarkerSubAux t1.length false t1
    ⟨stripL t2⟩

/-- Character class `[A-Za-z0-9.-]` of the domain-shaped-token regex. -/
def domClass (c : Char) : Bool :=
  isAlphaC c ∨ isDigitC c ∨ c = '.' ∨ c = '-'

/-- Backtracking split search for `[A-Za-z0-9.-]+\.[A-Za-z]{2,}` inside one
maximal class run: try the dot position from the right (greedy first part),
requiring at least two letters after the dot. -/
def domTrySplit (run : List Char) : Nat → Option (List Char)
  | 0 => none
  | j + 1 =>
    let attempt :=
      if run.get? (j + 1) = some '.' then
        let tl := (run.drop (j + 2)).takeWhile isAlphaC
        if 2 ≤ tl.length then some (run.take (j + 1) ++ '.' :: tl) else none
      else none
    match attempt with
    | some m => some m
    | none => domTrySplit run j

/-- Leftmost match of `[A-Za-z0-9.-]+\.[A-Za-z]{2,}`
(idealo `extract_merchant_from_alt`). -/
def domSearch : List Char → Option (List Char)
  | [] => none
  | c :: cs =>
    if domClass c then
      let run := (c :: cs).takeWhile domClass
      match domTrySplit run (run.length - 1) with
      | some m => some m
      | none => domSearch cs
    else domSearch cs

/-- Prefix of `l` before the first occurrence of `pat`
(`l.split(pat, 1)[0]`; the whole string when `pat` is absent). -/
def takeBeforeSub (pat : List Char) : List Char → List Char
  | [] => []
  | c :: t => if pat.isPrefixOf (c :: t) then [] else c :: takeBeforeSub pat t

/-- `extract_merchant_from_alt` (idealo.py lines 81-92). -/
def extractMerchantFromAlt (s : String) : String :=
  if s = "" then ""
  else
    let m0 := stripL (takeBeforeSub " - ".data s.data)
    let merchant := match domSearch m0 with | some m => m | none => m0
    let lowered := merchant.map lowerChar
    ⟨if ("www.".data).isPrefixOf lowered then lowered.drop 4 else lowered⟩

/-! ### idealo listing parse (parse_search_html, idealo.py lines 151-180) -/

/-- One `a[href*="/preisvergleich/OffersOfProduct/"]` anchor of the search
page: its text (`get_text(" ", strip=True)`), its `href`, and the text of its
parent node when one exists. -/
structure IdealoAnchor where
  text : String
  href : String
  parentText : Option String
deriving DecidableEq, Repr

structure IdealoProduct where
  name : String
  link : String
  price_from : String
deriving DecidableEq, Repr

def wordsAux : Nat → List Char → List (List Char)
  | 0, _ => []
  | _ + 1, [] => []
  | fuel + 1, c :: t =>
    if isWs c then wordsAux fuel t
    else
      let w := (c :: t).takeWhile (fun d => ¬isWs d)
      w :: wordsAux fuel ((c :: t).drop w.length)

/-- Python `" ".join(txt.split())`: collapse whitespace runs to single
spaces and trim. -/
def wsNormalize (s : String) : String :=
  ⟨List.intercalate [' '] (wordsAux s.data.length s.data)⟩

def idealoCandidates (anchors : List IdealoAnchor) : List IdealoProduct :=
  anchors.filterMap (fun a =>
    if a.text = "" ∨ a.text.length < 6 then none
    else if a.href = "" then none
    else
      let link :=
        if ("http".data).isPrefixOf a.href.data then a.href
        else ⟨"https://www.idealo.de".data ++ a.href.data⟩
      let blockText := wsNormalize a.text
      let p1 := parsePriceFromText blockText
      let priceFrom :=
        if p1 ≠ "" then p1
        else
          match a.parentText with
          | some pt => parsePriceFromText (wsNormalize pt)
          | none => ""
      some ⟨a.text, link, priceFrom⟩)

/-- The `dict.setdefault` de-duplication of `parse_search_html`: keep the
first product for each link, in first-seen order. -/
def dedupByLinkAux (seen : List String) : List IdealoProduct → List IdealoProduct
  | [] => []
  | p :: ps =>
    if p.link ∈ seen then dedupByLinkAux seen ps
    else p :: dedupByLinkAux (p.link :: seen) ps

def idealoParseSearch (anchors : List IdealoAnchor) : List IdealoProduct :=
  dedupByLinkAux [] (idealoCandidates anchors)

/-! ### idealo detail parse (parse_detail_html, idealo.py lines 229-290) -/

/-- The CTA anchor chosen by `pick_cta_anchor`, with its attributes
(`data-shop-name` and `href`; missing attributes are the empty string, which
is how the Python code treats them). -/
structure IdealoCta where
  dataShopName : String
  href : String
deriving DecidableEq, Repr

/-- The pieces of a detail page the parser inspects: the price element text,
the CTA of the first offer item, the logo image alt text, and the hrefs of
the fallback anchors inside the first offer item. -/
structure IdealoDetailPage where
  pvText : Option String
  cta : Option IdealoCta
  logoAlt : Option String
  anchorHrefs : List String
deriving DecidableEq, Repr

structure IdealoRow where
  name : String
  link : String
  preis_versand : String
  first_offer_url : String
  merchant : String
deriving DecidableEq, Repr

def fallbackAnchorUrl : List String → String
  | [] => ""
  | h :: t => if h ≠ "" then toAbsolute (resolveIdealoRedirect h) else fallbackAnchorUrl t

/-- `find_first_offer_url` (idealo.py lines 216-226). -/
def idealoFindFirstOfferUrl (pg : IdealoDetailPage) : String :=
  match pg.cta with
  | some cta =>
    if cta.href ≠ "" then toAbsolute (resolveIdealoRedirect cta.href)
    else fallbackAnchorUrl pg.anchorHrefs
  | none => fallbackAnchorUrl pg.anchorHrefs

/-- `parse_detail_html` (idealo.py lines 229-290): price-and-shipping text
with listing fallback, first offer URL, and the three-stage merchant chain
(CTA `data-shop-name`, logo alt text, resolved offer-URL host). -/
def idealoParseDetail (pg : IdealoDetailPage) (p : IdealoProduct) : IdealoRow :=
  let pv0 := match pg.pvText with | some t => t | none => ""
  let pv := if pv0 = "" then p.price_from else pv0
  let firstOfferUrl := idealoFindFirstOfferUrl pg
  let m1 :=
    match pg.cta with
    | some cta =>
      let ds0 := (stripL cta.dataShopName.data).map lowerChar
      let ds := if ("www.".data).isPrefixOf ds0 then ds0.drop 4 else ds0
      cleanMerchantNameL ds
    | none => []
  let m2 :=
    if m1 = [] then
      match pg.logoAlt with
      | some alt => cleanMerchantNameL (extractMerchantFromAlt alt).data
      | none => []
    else m1
  let m3 :=
    if m2 = [] ∧ firstOfferUrl ≠ "" then
      let host := extractHost (resolveIdealoRedirect firstOfferUrl)
      if host ≠ "" ∧ ¬(("idealo.de".data).isSuffixOf host.data) ∧
          ¬(("idealo.co.uk".data).isSuffixOf host.data) ∧
          ¬(containsSub "idealo.".data host.data) then
        cleanMerchantNameL host.data
      else []
    else m2
  ⟨p.name, p.link, idealoCleanPrice pv, firstOfferUrl, ⟨m3⟩⟩

/-! ### idealo detail fan-out (fetch_detail + asyncio.gather, lines 298-338) -/

/-- Outcome of one `crawler.arun` detail fetch: either the rendered page or a
raised exception (timeout, network error). -/
inductive IdealoFetchOutcome where
  | raised
  | page (h : IdealoDetailPage)
deriving DecidableEq, Repr

/-- `fetch_detail` (idealo.py lines 298-307): no error handling — a raised
fetch exception propagates. -/
def idealoFetchDetail (f : IdealoFetchOutcome) (p : IdealoProduct) :
    Except Unit IdealoRow :=
  match f with
  | .raised => .error ()
  | .page h => .ok (idealoParseDetail h p)

/-- `asyncio.gather(*[fetch_detail ...])` without `return_exceptions`: the
batch yields all rows only when every task succeeds; any propagating
exception aborts the whole batch. -/
def idealoDetailBatch : List (IdealoFetchOutcome × IdealoProduct) →
    Except Unit (List IdealoRow)
  | [] => .ok []
  | fp :: rest =>
    match idealoFetchDetail fp.1 fp.2 with
    | .error e => .error e
    | .ok row =>
      match idealoDetailBatch rest with
      | .error e => .error e
      | .ok rows => .ok (row :: rows)

/-! ### kleineskraftwerk listing/detail parse and fan-out -/

structure KkProduct where
  title : String
  detail_url : String
  original_price : String
  discount_price : String
  discount_rate : String
  source_url : String
deriving DecidableEq, Repr

/-- One `div.text-wrapper` block: the `.product-title a` anchor when present,
as its text and `href` (the missing-`href` case is the empty string, matching
`title_el.get("href") or ""`). -/
structure KkBlock where
  titleAnchor : Option (String × String)
deriving DecidableEq, Repr

/-- `parse_products` (kleineskraftwerk.py lines 37-65).  Fields absent at
listing time are the empty string; `source_url` is attached later by the
crawl loop and starts empty here. -/
def kkParseProducts (blocks : List KkBlock) (baseUrl : String) : List KkProduct :=
  blocks.filterMap (fun b =>
    match b.titleAnchor with
    | none => none
    | some ta =>
      if ta.1 = "" then none
      else some ⟨ta.1, urljoinS baseUrl ta.2, "", "", "", ""⟩)

/-- Position of a `span.amount` inside the price block: plain, or nested in
a `<del>` or `<ins>` element. -/
inductive AmtWrap where
  | plain
  | inDel
  | inIns
deriving DecidableEq, Repr

/-- The `span.price` block with its `span.amount` descendants in document
order, each tagged with its wrapper. -/
structure KkPriceBlock where
  amounts : List (AmtWrap × String)
deriving DecidableEq, Repr

structure KkDetailHtml where
  priceBlock : Option KkPriceBlock
deriving DecidableEq, Repr

/-- `extract_prices_from_detail` (kleineskraftwerk.py lines 110-150). -/
def kkExtractPrices (html : Option KkDetailHtml) : String × String :=
  match html with
  | none => ("", "")
  | some h =>
    match h.priceBlock with
    | none => ("", "")
    | some b =>
      let delEl := (b.amounts.find? (fun a => a.1 == AmtWrap.inDel)).map (·.2)
      let insEl := (b.amounts.find? (fun a => a.1 == AmtWrap.inIns)).map (·.2)
      let o1 := match delEl with | some t => kkCleanPriceText t | none => ""
      let d1 := match insEl with | some t => kkCleanPriceText t | none => ""
      let d2 :=
        if d1 = "" then
          match b.amounts.head? with
          | some a => kkCleanPriceText a.2
          | none => ""
        else d1
      if o1 = "" then
        let amts := (b.amounts.map (fun a => kkCleanPriceText a.2)).filter (· ≠ "")
        match amts with
        | a0 :: _ :: _ => (a0, if d2 = "" then amts.get? 1 |>.getD "" else d2)
        | [a0] => (a0, if d2 = "" then a0 else d2)
        | [] => (o1, d2)
      else (o1, d2)

/-- Outcome of one detail fetch for the kleineskraftwerk enrichment: a raised
exception, an empty/absent response body, or the page. -/
inductive KkFetchOutcome where
  | raised
  | emptyHtml
  | page (h : KkDetailHtml)
deriving DecidableEq, Repr

/-- `enrich_product_with_detail` (kleineskraftwerk.py lines 176-207): the
record passes through unchanged on a missing detail URL, a raised fetch
exception or an empty response; otherwise prices are extracted, the
single-price collapse applied, and the discount rate computed. -/
def kkEnrichWithDetail (f : KkFetchOutcome) (p : KkProduct) : KkProduct :=
  if p.detail_url = "" then p
  else
    match f with
    | .raised => p
    | .emptyHtml => p
    | .page h =>
      let pr := kkExtractPrices (some h)
      let o2 := if pr.1 = "" ∧ pr.2 ≠ "" then pr.2 else pr.1
      let d2 := if pr.2 = "" ∧ o2 ≠ "" then o2 else pr.2
      { p with
        original_price := o2
        discount_price := d2
        discount_rate := kkComputeDiscountRate o2 d2 }

/-- `asyncio.gather` over `enrich_product_with_detail`: every task returns a
record, so the batch always yields one output per input. -/
def kkDetailBatch (xs : List (KkFetchOutcome × KkProduct)) : List KkProduct :=
  xs.map (fun fp => kkEnrichWithDetail fp.1 fp.2)

/-! ### priwatt listing/detail parse -/

/-- One `a.block[href]` anchor of a priwatt listing: its `href` and the text
of its `h4.font-bold` child when present. -/
structure PriwattAnchor where
  href : String
  title : Option String
deriving DecidableEq, Repr

structure PriwattProduct where
  title : String
  detail_url : String
  original_price : String
  discount_price : String
deriving DecidableEq, Repr

/-- `parse_products` (priwatt.py lines 75-97): every anchor with a title
element yields a record; there is no title-content filter and no dedup. -/
def priwattParseProducts (anchors : List PriwattAnchor) (baseUrl : String) :
    List PriwattProduct :=
  anchors.filterMap (fun a =>
    match a.title with
    | none => none
    | some t => some ⟨t, urljoinS baseUrl a.href, "", ""⟩)

/-- The two price elements a priwatt detail page is queried for. -/
structure PriwattDetailHtml where
  tocPrice : Option String
  lineThrough : Option String
deriving DecidableEq, Repr

/-- `extract_prices_from_detail` (priwatt.py lines 100-122). -/
def priwattExtractPrices (html : Option PriwattDetailHtml) : String × String :=
  match html with
  | none => ("", "")
  | some h =>
    let d0 := match h.tocPrice with | some t => priwattCleanPriceText t | none => ""
    let o0 := match h.lineThrough with | some t => priwattCleanPriceText t | none => ""
    let o1 := if o0 = "" ∧ d0 ≠ "" then d0 else o0
    let d1 := if d0 = "" ∧ o1 ≠ "" then o1 else d0
    (o1, d1)

/-! ### Concrete fixtures used by counterexamples and witnesses -/

/-- A detail page whose first offer CTA carries
`data-shop-name="www.Example-Shop.de"` and nothing else. -/
def pageExampleShop : IdealoDetailPage :=
  ⟨none, some ⟨"www.Example-Shop.de", ""⟩, none, []⟩

def prodAnker : IdealoProduct :=
  ⟨"Anker Solix 2", "https://www.idealo.de/preisvergleich/OffersOfProduct/1", ""⟩

def kkProdSample : KkProduct :=
  ⟨"Balkonkraftwerk Set", "https://kleineskraftwerk.de/products/x", "", "", "", ""⟩

def kkPageDelIns : KkDetailHtml :=
  ⟨some ⟨[(AmtWrap.inDel, "199,00 €"), (AmtWrap.inIns, "149,00 €")]⟩⟩

/-- Five idealo detail fetches of which the third raises. -/
def idealoBatchFive : List (IdealoFetchOutcome × IdealoProduct) :=
  [(.page pageExampleShop, prodAnker), (.page pageExampleShop, prodAnker),
   (.raised, prodAnker), (.page pageExampleShop, prodAnker),
   (.page pageExampleShop, prodAnker)]

/-- Five kleineskraftwerk detail fetches of which the third raises. -/
def kkBatchFive : List (KkFetchOutcome × KkProduct) :=
  [(.page kkPageDelIns, kkProdSample), (.page kkPageDelIns, kkProdSample),
   (.raised, kkProdSample), (.page kkPageDelIns, kkProdSample),
   (.page kkPageDelIns, kkProdSample)]

/-- Canonical-price shape: exactly one decimal point, a non-empty all-digit
integer part and exactly two fractional digits. -/
def isCanonAmount (l : List Char) : Bool :=
  match splitOnChar '.' l with
  | [a, b] => !a.isEmpty && a.all isDigitC && b.length == 2 && b.all isDigitC
  | _ => false

/-! ### Supporting lemmas: characters -/

theorem toNat_ofNat_valid (n : Nat) (h : n.isValidChar) : (Char.ofNat n).toNat = n := by
  simp [Char.ofNat, h, Char.toNat, Char.ofNatAux]
  rfl

theorem charLe_iff (a c : Char) : (a ≤ c) ↔ a.toNat ≤ c.toNat := by
  rw [Char.le_def]
  exact ⟨fun h => h, fun h => h⟩

theorem lowerChar_toNat (c : Char) (h : 'A' ≤ c ∧ c ≤ 'Z') :
    (lowerChar c).toNat = c.toNat + 32 := by
  have h1 : 65 ≤ c.toNat := (charLe_iff _ _).mp h.1
  have h2 : c.toNat ≤ 90 := (charLe_iff _ _).mp h.2
  have hv : (c.toNat + 32).isValidChar := Or.inl (by omega)
  simp [lowerChar, h, toNat_ofNat_valid _ hv]

theorem lowerChar_idem (c : Char) : lowerChar (lowerChar c) = lowerChar c := by
  by_cases h : 'A' ≤ c ∧ c ≤ 'Z'
  · have h1 : 65 ≤ c.toNat := (charLe_iff _ _).mp h.1
    have h2 : c.toNat ≤ 90 := (charLe_iff _ _).mp h.2
    have ht := lowerChar_toNat c h
    have hz : ('Z').toNat = 90 := rfl
    have hno : ¬('A' ≤ lowerChar c ∧ lowerChar c ≤ 'Z') := by
      intro hc
      have h3 := (charLe_iff _ _).mp hc.2
      omega
    conv_lhs => rw [lowerChar]
    rw [if_neg hno]
  · simp [lowerChar, h]

theorem isDigitC_toNat (c : Char) (h : isDigitC c = true) :
    48 ≤ c.toNat ∧ c.toNat ≤ 57 := by
  simp [isDigitC] at h
  exact ⟨(charLe_iff _ _).mp h.1, (charLe_iff _ _).mp h.2⟩

theorem isWs_toNat (c : Char) (h : isWs c = true) :
    c.toNat = 32 ∨ c.toNat = 9 ∨ c.toNat = 10 ∨ c.toNat = 13 ∨
    c.toNat = 11 ∨ c.toNat = 12 ∨ c.toNat = 160 := by
  simp [isWs] at h
  rcases h with h | h | h | h | h | h | h <;> subst h <;> decide

theorem digit_not_ws (c : Char) (h : isDigitC c = true) : isWs c = false := by
  cases hws : isWs c
  · rfl
  · have h1 := isDigitC_toNat c h
    have h2 := isWs_toNat c hws
    omega

/-! ### Supporting lemmas: list utilities -/

theorem mem_of_mem_dropWhile {p : Char → Bool} {c : Char} {l : List Char}
    (h : c ∈ l.dropWhile p) : c ∈ l :=
  (List.dropWhile_sublist p).subset h

theorem mem_of_mem_stripL {c : Char} {l : List Char} (h : c ∈ stripL l) : c ∈ l := by
  unfold stripL at h
  rw [List.mem_reverse] at h
  have h2 := mem_of_mem_dropWhile h
  rw [List.mem_reverse] at h2
  exact mem_of_mem_dropWhile h2

theorem dropWhile_of_all_neg {p : Char → Bool} {l : List Char}
    (h : ∀ c ∈ l, p c = false) : l.dropWhile p = l := by
  cases l with
  | nil => rfl
  | cons x xs => simp [List.dropWhile, h x (List.mem_cons_self x xs)]

theorem stripL_of_all_not_ws {l : List Char} (h : ∀ c ∈ l, isWs c = false) :
    stripL l = l := by
  unfold stripL
  rw [dropWhile_of_all_neg h]
  rw [dropWhile_of_all_neg (fun c hc => h c (List.mem_reverse.mp hc))]
  exact List.reverse_reverse l

theorem splitOnChar_ne_nil (sep : Char) (l : List Char) : splitOnChar sep l ≠ [] := by
  induction l with
  | nil => simp [splitOnChar]
  | cons x xs ih =>
    simp only [splitOnChar]
    by_cases h : x = sep
    · simp [h]
    · simp only [if_neg h]
      rcases hr : splitOnChar sep xs with _ | ⟨p, t⟩
      · simp
      · simp

theorem splitOnChar_mem {sep : Char} :
    ∀ (l : List Char) (p : List Char), p ∈ splitOnChar sep l → ∀ c ∈ p, c ∈ l := by
  intro l
  induction l with
  | nil =>
    intro p hp c hc
    simp [splitOnChar] at hp
    subst hp
    simp at hc
  | cons x xs ih =>
    intro p hp c hc
    simp only [splitOnChar] at hp
    by_cases h : x = sep
    · rw [if_pos h] at hp
      rcases List.mem_cons.mp hp with he | ht
      · subst he; simp at hc
      · exact List.mem_cons_of_mem _ (ih p ht c hc)
    · rw [if_neg h] at hp
      rcases hr : splitOnChar sep xs with _ | ⟨q, t⟩
      · exact absurd hr (splitOnChar_ne_nil sep xs)
      · rw [hr] at hp
        rcases List.mem_cons.mp hp with he | ht
        · subst he
          rcases List.mem_cons.mp hc with hcx | hcq
          · exact hcx ▸ List.mem_cons_self x xs
          · have : q ∈ splitOnChar sep xs := hr ▸ List.mem_cons_self q t
            exact List.mem_cons_of_mem _ (ih q this c hcq)
        · have : p ∈ splitOnChar sep xs := hr ▸ List.mem_cons_of_mem _ ht
          exact List.mem_cons_of_mem _ (ih p this c hc)

theorem splitOnChar_of_not_mem {sep : Char} {l : List Char} (h : sep ∉ l) :
    splitOnChar sep l = [l] := by
  induction l with
  | nil => rfl
  | cons x xs ih =>
    have hx : x ≠ sep := fun e => h (e ▸ List.mem_cons_self x xs)
    have hxs : sep ∉ xs := fun m => h (List.mem_cons_of_mem _ m)
    simp only [splitOnChar, if_neg hx, ih hxs]

theorem splitOnChar_append_sep {sep : Char} {A B : List Char}
    (hA : sep ∉ A) (hB : sep ∉ B) :
    splitOnChar sep (A ++ sep :: B) = [A, B] := by
  induction A with
  | nil =>
    show splitOnChar sep (sep :: B) = [[], B]
    simp [splitOnChar, splitOnChar_of_not_mem hB]
  | cons a A ih =>
    have ha : a ≠ sep := fun e => hA (e ▸ List.mem_cons_self a A)
    have hA2 : sep ∉ A := fun m => hA (List.mem_cons_of_mem _ m)
    show splitOnChar sep (a :: (A ++ sep :: B)) = [a :: A, B]
    simp only [splitOnChar, if_neg ha]
    rw [ih hA2]

theorem map_eq_self_of_fixed {f : Char → Char} {l : List Char}
    (h : ∀ c ∈ l, f c = c) : l.map f = l := by
  induction l with
  | nil => rfl
  | cons x xs ih =>
    simp only [List.map_cons, h x (List.mem_cons_self x xs)]
    rw [ih (fun c hc => h c (List.mem_cons_of_mem _ hc))]

theorem takeWhile_append_of_all {p : Char → Bool} {D : List Char} {x : Char}
    {rest : List Char} (hD : ∀ c ∈ D, p c = true) (hx : p x = false) :
    (D ++ x :: rest).takeWhile p = D := by
  induction D with
  | nil => simp [List.takeWhile, hx]
  | cons d D ih =>
    simp only [List.cons_append,
      List.takeWhile_cons_of_pos (hD d (List.mem_cons_self d D))]
    rw [ih (fun c hc => hD c (List.mem_cons_of_mem _ hc))]

/-! ### Supporting lemmas: clean_merchant_name -/

theorem merchantSepLoop_some_sub {m p : List Char} :
    ∀ {seps : List Char}, merchantSepLoop m seps = some p → ∀ c ∈ p, c ∈ m := by
  intro seps
  induction seps with
  | nil => intro h; simp [merchantSepLoop] at h
  | cons sep rest ih =>
    intro h c hc
    simp only [merchantSepLoop] at h
    by_cases hs : sep ∈ m
    · rw [if_pos hs] at h
      rcases hcl : ((splitOnChar sep m).map stripL).filter
          (fun q => q ≠ [] ∧ q ∉ unwantedSuffixes) with _ | ⟨q, t⟩
      · rw [hcl] at h
        exact ih h c hc
      · rw [hcl] at h
        have hq : q ∈ ((splitOnChar sep m).map stripL).filter
            (fun q => q ≠ [] ∧ q ∉ unwantedSuffixes) := hcl ▸ List.mem_cons_self q t
        have hq2 := (List.mem_filter.mp hq).1
        rcases List.mem_map.mp hq2 with ⟨part, hpart, he⟩
        cases h
        subst he
        exact splitOnChar_mem m part hpart c (mem_of_mem_stripL hc)
    · rw [if_neg hs] at h
      exact ih h c hc

theorem merchantSepLoop_some_pred {m p : List Char} :
    ∀ {seps : List Char}, merchantSepLoop m seps = some p →
    p ≠ [] ∧ p ∉ unwantedSuffixes := by
  intro seps
  induction seps with
  | nil => intro h; simp [merchantSepLoop] at h
  | cons sep rest ih =>
    intro h
    simp only [merchantSepLoop] at h
    by_cases hs : sep ∈ m
    · rw [if_pos hs] at h
      rcases hcl : ((splitOnChar sep m).map stripL).filter
          (fun q => q ≠ [] ∧ q ∉ unwantedSuffixes) with _ | ⟨q, t⟩
      · rw [hcl] at h
        exact ih h
      · rw [hcl] at h
        have hq : q ∈ ((splitOnChar sep m).map stripL).filter
            (fun q => q ≠ [] ∧ q ∉ unwantedSuffixes) := hcl ▸ List.mem_cons_self q t
        have hpred := (List.mem_filter.mp hq).2
        cases h
        simpa using hpred
    · rw [if_neg hs] at h
      exact ih h

theorem merchantSepLoop_none_of_no_sep {m : List Char} :
    ∀ {seps : List Char}, (∀ sep ∈ seps, sep ∉ m) →
    merchantSepLoop m seps = none := by
  intro seps
  induction seps with
  | nil => intro _; rfl
  | cons sep rest ih =>
    intro h
    simp only [merchantSepLoop,
      if_neg (h sep (List.mem_cons_self sep rest))]
    exact ih (fun s hs => h s (List.mem_cons_of_mem _ hs))

theorem cleanMerchant_chars_sub {x : List Char} {c : Char}
    (h : c ∈ cleanMerchantNameL x) : c ∈ x.map lowerChar := by
  unfold cleanMerchantNameL at h
  by_cases hx : x = []
  · rw [if_pos hx] at h; simp at h
  · rw [if_neg hx] at h
    simp only at h
    set m0 := stripL (x.map lowerChar) with hm0
    set m := if ("www.".data).isPrefixOf m0 then m0.drop 4 else m0 with hm
    have hmsub : ∀ d, d ∈ m → d ∈ x.map lowerChar := by
      intro d hd
      have : d ∈ m0 := by
        rw [hm] at hd
        split at hd
        · exact List.mem_of_mem_drop hd
        · exact hd
      exact mem_of_mem_stripL this
    rcases hloop : merchantSepLoop m merchantSeps with _ | p
    · rw [hloop] at h
      by_cases hsuf : m ∈ unwantedSuffixes
      · rw [if_pos hsuf] at h
        simp at h
      · rw [if_neg hsuf] at h
        exact hmsub c h
    · rw [hloop] at h
      exact hmsub c (merchantSepLoop_some_sub hloop c h)

theorem cleanMerchant_chars_lower {x : List Char} {c : Char}
    (h : c ∈ cleanMerchantNameL x) : lowerChar c = c := by
  rcases List.mem_map.mp (cleanMerchant_chars_sub h) with ⟨d, _, he⟩
  rw [← he, lowerChar_idem]

theorem cleanMerchant_not_suffix (x : List Char) :
    cleanMerchantNameL x = [] ∨ cleanMerchantNameL x ∉ unwantedSuffixes := by
  unfold cleanMerchantNameL
  by_cases hx : x = []
  · rw [if_pos hx]; exact Or.inl rfl
  · rw [if_neg hx]
    simp only
    set m := if ("www.".data).isPrefixOf (stripL (x.map lowerChar)) then
      (stripL (x.map lowerChar)).drop 4 else stripL (x.map lowerChar) with hm
    rcases hloop : merchantSepLoop m merchantSeps with _ | p
    · simp only [hloop]
      by_cases hsuf : m ∈ unwantedSuffixes
      · rw [if_pos hsuf]
        exact Or.inl rfl
      · rw [if_neg hsuf]
        exact Or.inr hsuf
    · simp only [hloop]
      exact Or.inr (merchantSepLoop_some_pred hloop).2

/-! ### Claim C6 -/

/-- C6, counterexample: merchant canonicalization is not idempotent — on
`"www.example-shop.de"` one application yields `"example-shop"` (the dot is
split first and `de` discarded) but a second application splits on the dash
and yields `"example"`. -/
theorem C6_counterexample :
    cleanMerchantName (cleanMerchantName "www.example-shop.de") ≠
      cleanMerchantName "www.example-shop.de" ∧
    cleanMerchantName "www.example-shop.de" = "example-shop" ∧
    cleanMerchantName (cleanMerchantName "www.example-shop.de") = "example" := by
  refine ⟨?_, ?_, ?_⟩ <;> decide

/-- C6, amended: clean_merchant_name is idempotent on every input whose
cleaned result contains none of the separator characters `.`, `-`, `_`,
space and is unchanged by whitespace stripping; the counterexample result
`"example-shop"` retains a separator, which is exactly the failure mode. -/
theorem C6_theorem (x : String)
    (h1 : ∀ c ∈ (cleanMerchantName x).data, c ∉ merchantSeps)
    (h2 : stripL (cleanMerchantName x).data = (cleanMerchantName x).data) :
    cleanMerchantName (cleanMerchantName x) = cleanMerchantName x := by
  have hA1 : ∀ c ∈ cleanMerchantNameL x.data, c ∉ merchantSeps := h1
  have hA2 : stripL (cleanMerchantNameL x.data) = cleanMerchantNameL x.data := h2
  have hlowAll : ∀ c ∈ cleanMerchantNameL x.data, lowerChar c = c :=
    fun _ hc => cleanMerchant_chars_lower hc
  have hsuf := cleanMerchant_not_suffix x.data
  show (⟨cleanMerchantNameL (cleanMerchantNameL x.data)⟩ : String) =
    ⟨cleanMerchantNameL x.data⟩
  congr 1
  generalize hg : cleanMerchantNameL x.data = y at hA1 hA2 hlowAll hsuf ⊢
  by_cases hnil : y = []
  · rw [hnil]
    rfl
  · rcases hsuf with he | hns
    · exact absurd he hnil
    unfold cleanMerchantNameL
    rw [if_neg hnil]
    simp only
    have hlow : y.map lowerChar = y := map_eq_self_of_fixed hlowAll
    rw [hlow, hA2]
    have hwww : ¬(("www.".data).isPrefixOf y = true) := by
      intro hw
      rcases List.isPrefixOf_iff_prefix.mp hw with ⟨t, ht⟩
      have hdot : '.' ∈ y := by
        rw [← ht]
        exact List.mem_append_left t (by decide)
      exact (hA1 '.' hdot) (by decide)
    rw [if_neg hwww]
    rw [merchantSepLoop_none_of_no_sep (fun sep hs hm => (hA1 sep hm) hs)]
    show (if y ∈ unwantedSuffixes then [] else y) = y
    rw [if_neg hns]

/-- C6, witness: the amended idempotence at `"www.Galaxus.de"`, whose
cleaned result `"galaxus"` is separator-free. -/
theorem C6_witness :
    cleanMerchantName (cleanMerchantName "www.Galaxus.de") =
      cleanMerchantName "www.Galaxus.de" :=
  C6_theorem "www.Galaxus.de" (by decide) (by decide)

/-! ### Claim C3 -/

theorem priwattPTF_eq (s : String) : priwattPriceToFloat s = parseNum s.data := by
  by_cases h : s = ""
  · subst h
    rfl
  · simp [priwattPriceToFloat, h]

theorem dotNormalize_of_plain {l : List Char} (hd : '.' ∉ l) (hc : ',' ∉ l) :
    dotNormalize l = l := by
  unfold dotNormalize
  have hfil : List.filter (fun x => decide (x ≠ '.')) l = l :=
    List.filter_eq_self.mpr (fun c hcm =>
      decide_eq_true (fun e : c = '.' => hd (e ▸ hcm)))
  rw [hfil]
  exact map_eq_self_of_fixed (fun c hcm =>
    if_neg (fun e : c = ',' => hc (e ▸ hcm)))

theorem kkPTF_eq_of_plain (s : String) (hd : '.' ∉ s.data) (hc : ',' ∉ s.data) :
    kkPriceToFloat s = parseNum s.data := by
  by_cases h : s = ""
  · subst h
    rfl
  · simp [kkPriceToFloat, h, dotNormalize_of_plain hd hc]

/-- C3, counterexample: `"1.5"` and `"1"` are valid positive decimals with
original `1.5 > 0`, and the spec formula gives `33.33%`; but the
kleineskraftwerk `compute_discount_rate` strips the dot as a thousands
separator (reading `1.5` as `15`) and returns `93.33%`. -/
theorem C3_counterexample :
    parseNum "1.5".data = some (15, 10) ∧
    parseNum "1".data = some (1, 1) ∧
    computeDiscountRateSpec (parseNum "1.5".data) (parseNum "1".data) = "33.33%" ∧
    kkComputeDiscountRate "1.5" "1" = "93.33%" ∧
    kkComputeDiscountRate "1.5" "1" ≠
      computeDiscountRateSpec (parseNum "1.5".data) (parseNum "1".data) := by
  refine ⟨?_, ?_, ?_, ?_, ?_⟩ <;> decide

/-- C3, amended: the priwatt `compute_discount_rate` satisfies the claimed
specification (empty on unparseable input or non-positive original, else the
rounded two-decimal percentage) for every pair of strings; the
kleineskraftwerk version satisfies it for price strings containing no dot
and no comma, its parser reading dots as thousands separators otherwise. -/
theorem C3_theorem (s1 s2 t1 t2 : String)
    (h1 : '.' ∉ t1.data ∧ ',' ∉ t1.data) (h2 : '.' ∉ t2.data ∧ ',' ∉ t2.data) :
    priwattComputeDiscountRate s1 s2 =
      computeDiscountRateSpec (parseNum s1.data) (parseNum s2.data) ∧
    kkComputeDiscountRate t1 t2 =
      computeDiscountRateSpec (parseNum t1.data) (parseNum t2.data) := by
  constructor
  · unfold priwattComputeDiscountRate computeDiscountRateWith computeDiscountRateSpec
    rw [priwattPTF_eq s1, priwattPTF_eq s2]
  · unfold kkComputeDiscountRate computeDiscountRateWith computeDiscountRateSpec
    rw [kkPTF_eq_of_plain t1 h1.1 h1.2, kkPTF_eq_of_plain t2 h2.1 h2.2]

/-- C3, witness: the amended theorem applied at the dot-free pair
`("199", "149")` for kleineskraftwerk and `("199.00", "149.00")` for
priwatt. -/
theorem C3_witness :
    priwattComputeDiscountRate "199.00" "149.00" =
      computeDiscountRateSpec (parseNum "199.00".data) (parseNum "149.00".data) ∧
    kkComputeDiscountRate "199" "149" =
      computeDiscountRateSpec (parseNum "199".data) (parseNum "149".data) :=
  C3_theorem "199.00" "149.00" "199" "149" (by decide) (by decide)

/-! ### Claim C8 -/

theorem amtBeq_pd : (AmtWrap.plain == AmtWrap.inDel) = false := rfl

theorem amtBeq_pi : (AmtWrap.plain == AmtWrap.inIns) = false := rfl

theorem amtBeq_dd : (AmtWrap.inDel == AmtWrap.inDel) = true := rfl

theorem amtBeq_di : (AmtWrap.inDel == AmtWrap.inIns) = false := rfl

theorem amtBeq_id : (AmtWrap.inIns == AmtWrap.inDel) = false := rfl

theorem amtBeq_ii : (AmtWrap.inIns == AmtWrap.inIns) = true := rfl

/-- C8: when exactly one price amount element is extractable from a detail
page, the original and discounted price collapse to the same value — for the
kleineskraftwerk extractor (a single `span.amount`, wherever it sits) and for
the priwatt extractor (only one of the two price selectors matches). -/
theorem C8_theorem :
    (∀ (w : AmtWrap) (t : String),
      (kkExtractPrices (some ⟨some ⟨[(w, t)]⟩⟩)).1 =
        (kkExtractPrices (some ⟨some ⟨[(w, t)]⟩⟩)).2) ∧
    (∀ u : String,
      (priwattExtractPrices (some ⟨some u, none⟩)).1 =
        (priwattExtractPrices (some ⟨some u, none⟩)).2 ∧
      (priwattExtractPrices (some ⟨none, some u⟩)).1 =
        (priwattExtractPrices (some ⟨none, some u⟩)).2) := by
  constructor
  · intro w t
    cases w <;>
      simp only [kkExtractPrices, List.find?, List.head?, List.map, List.filter,
        amtBeq_pd, amtBeq_pi, amtBeq_dd, amtBeq_di, amtBeq_id, amtBeq_ii] <;>
      by_cases h : kkCleanPriceText t = "" <;>
      simp [h]
  · intro u
    refine ⟨?_, ?_⟩ <;>
      simp only [priwattExtractPrices] <;>
      by_cases h : priwattCleanPriceText u = "" <;>
      simp [h]

/-! ### Claim C10 -/

/-- C10: resolve_idealo_redirect returns its input unchanged whenever the
URL is not recognized (no `idealo.` in the netloc, or neither redirect route
fragment in the path), and likewise whenever none of the three target
parameters is present with a non-empty value in the parsed query. -/
theorem C10_theorem (url : String)
    (h : (¬(containsSub "idealo.".data (urlsplitL url.data).netloc = true ∧
          (containsSub "/relocator/relocate".data (urlsplitL url.data).path = true ∨
           containsSub "/Redirect".data (urlsplitL url.data).path = true))) ∨
         (qsLookup "targetUrl".data (parseQsl (urlsplitL url.data).query) = none ∧
          qsLookup "url".data (parseQsl (urlsplitL url.data).query) = none ∧
          qsLookup "redirectUrl".data (parseQsl (urlsplitL url.data).query) = none)) :
    resolveIdealoRedirect url = url := by
  show (⟨resolveIdealoRedirectL url.data⟩ : String) = url
  simp only [resolveIdealoRedirectL]
  rcases h with h | h
  · rw [if_neg h]
  · by_cases hc : containsSub "idealo.".data (urlsplitL url.data).netloc = true ∧
        (containsSub "/relocator/relocate".data (urlsplitL url.data).path = true ∨
         containsSub "/Redirect".data (urlsplitL url.data).path = true)
    · rw [if_pos hc, h.1, h.2.1, h.2.2]
    · rw [if_neg hc]

/-- C10, witness: no-op on a URL with a foreign host, and on a recognized
redirect URL carrying no known target parameter. -/
theorem C10_witness :
    resolveIdealoRedirect "https://example.com/Redirect?targetUrl=x" =
      "https://example.com/Redirect?targetUrl=x" ∧
    resolveIdealoRedirect "https://www.idealo.de/Redirect?other=1" =
      "https://www.idealo.de/Redirect?other=1" :=
  ⟨ C10_theorem "https://example.com/Redirect?targetUrl=x" (Or.inl (by decide)),
   C10_theorem "https://www.idealo.de/Redirect?other=1" (Or.inr (by decide))⟩

/-! ### Claim C1 -/

theorem idealoBatch_error_of_mem :
    ∀ (ys : List (IdealoFetchOutcome × IdealoProduct))
      (fp : IdealoFetchOutcome × IdealoProduct), fp ∈ ys →
      fp.1 = IdealoFetchOutcome.raised → idealoDetailBatch ys = Except.error () := by
  intro ys
  induction ys with
  | nil =>
    intro fp h
    simp at h
  | cons y t ih =>
    intro fp hmem hf
    rcases List.mem_cons.mp hmem with he | ht
    · subst he
      simp [idealoDetailBatch, idealoFetchDetail, hf]
    · simp only [idealoDetailBatch]
      cases hhead : idealoFetchDetail y.1 y.2 with
      | error e =>
        cases e
        rfl
      | ok row =>
        rw [ih fp ht hf]

theorem kkEnrich_fail (f : KkFetchOutcome) (p : KkProduct)
    (h : f = KkFetchOutcome.raised ∨ f = KkFetchOutcome.emptyHtml) :
    kkEnrichWithDetail f p = p := by
  rcases h with h | h <;> subst h <;> simp [kkEnrichWithDetail]

/-- C1, counterexample: a batch of five idealo records in which the third
detail fetch raises aborts entirely (the gather propagates the exception and
no rows are produced), contrary to the claim that five rows survive; the
kleineskraftwerk batch of five with one raised fetch does yield five records
with the failed one kept unchanged. -/
theorem C1_counterexample :
    idealoDetailBatch idealoBatchFive = Except.error () ∧
    (kkDetailBatch kkBatchFive).length = 5 ∧
    (kkDetailBatch kkBatchFive).get? 2 = some kkProdSample := by
  refine ⟨rfl, ?_, ?_⟩ <;> decide

/-- C1, amended: per-item failure isolation holds for the kleineskraftwerk
(and priwatt) enrichment — the batch always yields one record per input, and
a raised fetch or empty response leaves the record with its listing-only
fields — but not for idealo, whose `fetch_detail` has no error handling: one
raised detail fetch aborts the whole gathered batch. -/
theorem C1_theorem :
    (∀ xs : List (KkFetchOutcome × KkProduct),
      (kkDetailBatch xs).length = xs.length) ∧
    (∀ (f : KkFetchOutcome) (p : KkProduct),
      f = KkFetchOutcome.raised ∨ f = KkFetchOutcome.emptyHtml →
      kkEnrichWithDetail f p = p) ∧
    (∀ (ys : List (IdealoFetchOutcome × IdealoProduct))
       (fp : IdealoFetchOutcome × IdealoProduct), fp ∈ ys →
      fp.1 = IdealoFetchOutcome.raised → idealoDetailBatch ys = Except.error ()) := by
  refine ⟨?_, kkEnrich_fail, idealoBatch_error_of_mem⟩
  intro xs
  simp [kkDetailBatch]

/-- C1, witness: the amended theorem at a concrete raised fetch and at the
concrete five-element idealo batch with one raised fetch. -/
theorem C1_witness :
    kkEnrichWithDetail KkFetchOutcome.raised kkProdSample = kkProdSample ∧
    idealoDetailBatch idealoBatchFive = Except.error () :=
  ⟨C1_theorem.2.1 KkFetchOutcome.raised kkProdSample (Or.inl rfl),
   C1_theorem.2.2 idealoBatchFive (IdealoFetchOutcome.raised, prodAnker)
     (by decide) rfl⟩

/-! ### Claim C2 -/

/-- C2, counterexample: on a detail page whose first offer CTA carries
`data-shop-name="www.Example-Shop.de"`, the parsed merchant is not
`"example"`: the cleaner splits on the first separator found (the dot),
discards the suffix `de` and returns the whole first part
`"example-shop"`. -/
theorem C2_counterexample :
    (idealoParseDetail pageExampleShop prodAnker).merchant ≠ "example" ∧
    (idealoParseDetail pageExampleShop prodAnker).merchant = "example-shop" := by
  refine ⟨?_, ?_⟩ <;> decide

/-- C2, amended: for every listing record, a detail page whose first offer
CTA carries `data-shop-name="www.Example-Shop.de"` resolves the merchant to
exactly `"example-shop"`. -/
theorem C2_theorem (p : IdealoProduct) :
    (idealoParseDetail pageExampleShop p).merchant = "example-shop" := rfl

/-! ### Claim C4 -/

theorem dedupByLinkAux_spec :
    ∀ (xs : List IdealoProduct) (seen : List String),
      ((dedupByLinkAux seen xs).map IdealoProduct.link).Nodup ∧
        ∀ r ∈ dedupByLinkAux seen xs, r.link ∉ seen ∧
          xs.find? (fun p => p.link == r.link) = some r := by
  intro xs
  induction xs with
  | nil =>
    intro seen
    constructor
    · simp [dedupByLinkAux]
    · intro r h
      simp [dedupByLinkAux] at h
  | cons p ps ih =>
    intro seen
    by_cases hp : p.link ∈ seen
    · constructor
      · simpa [dedupByLinkAux, hp] using (ih seen).1
      · intro r hr
        simp only [dedupByLinkAux, if_pos hp] at hr
        have h2 := (ih seen).2 r hr
        have hne : (p.link == r.link) = false := by
          cases hbe : p.link == r.link
          · rfl
          · exact absurd (eq_of_beq hbe) (fun e => h2.1 (e ▸ hp))
        refine ⟨h2.1, ?_⟩
        simp [List.find?_cons, hne, h2.2]
    · constructor
      · simp only [dedupByLinkAux, if_neg hp, List.map_cons, List.nodup_cons]
        constructor
        · intro hmem
          rcases List.mem_map.mp hmem with ⟨r, hr, he⟩
          have hni := ((ih (p.link :: seen)).2 r hr).1
          exact hni (he ▸ List.mem_cons_self _ _)
        · exact (ih (p.link :: seen)).1
      · intro r hr
        simp only [dedupByLinkAux, if_neg hp] at hr
        rcases List.mem_cons.mp hr with he | ht
        · subst he
          exact ⟨hp, by simp [List.find?_cons]⟩
        · have h2 := (ih (p.link :: seen)).2 r ht
          have hnotin : r.link ∉ seen := fun hx => h2.1 (List.mem_cons_of_mem _ hx)
          have hne : (p.link == r.link) = false := by
            cases hbe : p.link == r.link
            · rfl
            · refine absurd (eq_of_beq hbe) (fun e => h2.1 ?_)
              rw [← e]
              exact List.mem_cons_self _ _
          refine ⟨hnotin, ?_⟩
          simp [List.find?_cons, hne, h2.2]

/-- C4, counterexample: the kleineskraftwerk listing parse performs no
de-duplication — two blocks with the same detail URL and different titles
yield two records, not one. -/
theorem C4_counterexample :
    (kkParseProducts
      [⟨some ("Alpha Kraftwerk", "https://kleineskraftwerk.de/products/a")⟩,
       ⟨some ("Beta Kraftwerk", "https://kleineskraftwerk.de/products/a")⟩]
      "https://kleineskraftwerk.de/collections/x").map
        (fun r => (r.title, r.detail_url)) =
      [("Alpha Kraftwerk", "https://kleineskraftwerk.de/products/a"),
       ("Beta Kraftwerk", "https://kleineskraftwerk.de/products/a")] := by
  decide

/-- C4, amended: only the idealo listing parse de-duplicates by detail URL:
its result has pairwise-distinct links, and every returned record is the
first pre-dedup candidate carrying its link (so the first-seen title wins);
the kleineskraftwerk listing parse keeps duplicate URLs. -/
theorem C4_theorem (anchors : List IdealoAnchor) :
    ((idealoParseSearch anchors).map IdealoProduct.link).Nodup ∧
    (idealoParseSearch anchors).all (fun r =>
      decide ((idealoCandidates anchors).find? (fun p => p.link == r.link) =
        some r)) = true := by
  constructor
  · exact (dedupByLinkAux_spec (idealoCandidates anchors) []).1
  · rw [List.all_eq_true]
    intro r hr
    rw [decide_eq_true_eq]
    exact ((dedupByLinkAux_spec (idealoCandidates anchors) []).2 r hr).2

/-! ### Claim C5 -/

theorem idealoCandidates_title {anchors : List IdealoAnchor} {r : IdealoProduct}
    (h : r ∈ idealoCandidates anchors) : 6 ≤ r.name.length := by
  rcases List.mem_filterMap.mp h with ⟨a, _, hf⟩
  simp only at hf
  by_cases hc : a.text = "" ∨ a.text.length < 6
  · rw [if_pos hc] at hf
    exact absurd hf (by simp)
  · rw [if_neg hc] at hf
    by_cases hh : a.href = ""
    · rw [if_pos hh] at hf
      exact absurd hf (by simp)
    · rw [if_neg hh] at hf
      have hname : r.name = a.text := by
        have he := Option.some.inj hf
        rw [← he]
      rw [hname]
      push_neg at hc
      omega

theorem kkParse_title_nonempty {blocks : List KkBlock} {base : String}
    {r : KkProduct} (h : r ∈ kkParseProducts blocks base) : r.title ≠ "" := by
  rcases List.mem_filterMap.mp h with ⟨b, _, hf⟩
  rcases hta : b.titleAnchor with _ | ta
  · rw [hta] at hf
    exact absurd hf (by simp)
  · rw [hta] at hf
    dsimp only at hf
    by_cases he : ta.1 = ""
    · rw [if_pos he] at hf
      exact absurd hf (by simp)
    · rw [if_neg he] at hf
      have ht : r.title = ta.1 := by
        have hi := Option.some.inj hf
        rw [← hi]
      rw [ht]
      exact he

theorem priwattParse_length (anchors : List PriwattAnchor) (base : String) :
    (priwattParseProducts anchors base).length =
      (anchors.filter (fun a => a.title.isSome)).length := by
  unfold priwattParseProducts
  induction anchors with
  | nil => rfl
  | cons a t ih =>
    cases ha : a.title with
    | none => simp [List.filterMap_cons, List.filter_cons, ha, ih]
    | some tt => simp [List.filterMap_cons, List.filter_cons, ha, ih]

/-- C5, counterexample: the kleineskraftwerk listing parse keeps the 3-character
title `"Abc"` (it only discards empty titles), and the priwatt listing parse
even keeps an empty title — both contradict the claimed 6-character minimum
for every listing parse. -/
theorem C5_counterexample :
    (kkParseProducts [⟨some ("Abc", "https://kleineskraftwerk.de/p/a")⟩]
      "https://kleineskraftwerk.de/collections/x").map KkProduct.title = ["Abc"] ∧
    "Abc".length < 6 ∧
    (priwattParseProducts [⟨"https://priwatt.de/p/x", some ""⟩]
      "https://priwatt.de/").map PriwattProduct.title = [""] := by
  refine ⟨?_, ?_, ?_⟩ <;> decide

/-- C5, amended: only the idealo listing parse enforces the claim — every
record it returns has a title of at least 6 characters; the kleineskraftwerk
parse guarantees only non-empty titles, and the priwatt parse applies no
title filter at all (it keeps exactly one record per anchor that has a title
element). -/
theorem C5_theorem (anchors : List IdealoAnchor) (blocks : List KkBlock)
    (pans : List PriwattAnchor) (b1 b2 : String) :
    (idealoParseSearch anchors).all (fun r => decide (6 ≤ r.name.length)) = true ∧
    (kkParseProducts blocks b1).all (fun r => decide (r.title ≠ "")) = true ∧
    (priwattParseProducts pans b2).length =
      (pans.filter (fun a => a.title.isSome)).length := by
  refine ⟨?_, ?_, priwattParse_length pans b2⟩
  · rw [List.all_eq_true]
    intro r hr
    rw [decide_eq_true_eq]
    have hfind := ((dedupByLinkAux_spec (idealoCandidates anchors) []).2 r hr).2
    exact idealoCandidates_title (List.mem_of_find?_eq_some hfind)
  · rw [List.all_eq_true]
    intro r hr
    rw [decide_eq_true_eq]
    exact kkParse_title_nonempty hr

/-! ### Claim C7 -/

theorem mem_stripLeadMarker {ss l : List Char} {c : Char}
    (h : c ∈ stripLeadMarker ss l) : c ∈ l := by
  unfold stripLeadMarker at h
  dsimp only at h
  rcases hw : l.dropWhile isWs with _ | ⟨a, rest1⟩
  · rw [hw] at h
    exact h
  · rcases rest1 with _ | ⟨b, rest⟩
    · rw [hw] at h
      exact h
    · rw [hw] at h
      dsimp only at h
      by_cases hc : (a = 'a' ∨ a = 'A') ∧ b ∈ ss
      · rw [if_pos hc] at h
        have h2 := mem_of_mem_dropWhile h
        have h3 : c ∈ l.dropWhile isWs := by
          rw [hw]
          exact List.mem_cons_of_mem _ (List.mem_cons_of_mem _ h2)
        exact mem_of_mem_dropWhile h3
      · rw [if_neg hc] at h
        exact h

theorem mem_kkPricePre {l : List Char} {c : Char} (h : c ∈ kkPricePre l) :
    c ∈ l := by
  unfold kkPricePre at h
  exact mem_stripLeadMarker (List.mem_filter.mp (mem_of_mem_stripL h)).1

theorem kkPriceSearch_none {l : List Char} (h : ∀ c ∈ l, isDigitC c = false) :
    kkPriceSearch l = none := by
  induction l with
  | nil => rfl
  | cons c cs ih =>
    have hc := h c (List.mem_cons_self _ _)
    have ihx := ih (fun d hd => h d (List.mem_cons_of_mem _ hd))
    simp [kkPriceSearch, hc, ihx]

theorem digitRunSearch_none {l : List Char} (h : ∀ c ∈ l, isDigitC c = false) :
    digitRunSearch l = none := by
  induction l with
  | nil => rfl
  | cons c cs ih =>
    have hc := h c (List.mem_cons_self _ _)
    have ihx := ih (fun d hd => h d (List.mem_cons_of_mem _ hd))
    simp [digitRunSearch, hc, ihx]

/-- C7, counterexample: on digit-free input the normalisers do not return
the empty string — kleineskraftwerk's `clean_price_text` returns its
preprocessed input (`"xyz"`), and priwatt's returns the punctuation residue
(`"."` for input `","`). -/
theorem C7_counterexample :
    kkCleanPriceText "xyz" = "xyz" ∧ kkCleanPriceText "xyz" ≠ "" ∧
    priwattCleanPriceText "," = "." ∧ priwattCleanPriceText "," ≠ "" := by
  refine ⟨?_, ?_, ?_, ?_⟩ <;> decide

/-- C7, amended: both normalisers are total, but on input without digits
kleineskraftwerk's `clean_price_text` returns the preprocessed remainder
(marker and euro sign removed, whitespace stripped) rather than the empty
string — which is empty only when that remainder is empty — while priwatt's
returns the empty string whenever the input has no digit, dot or comma
characters at all. -/
theorem C7_theorem (s1 s2 : String)
    (h1 : ∀ c ∈ s1.data, isDigitC c = false)
    (h2 : ∀ c ∈ s2.data, isDigitC c = false ∧ c ≠ '.' ∧ c ≠ ',') :
    kkCleanPriceText s1 = (⟨kkPricePre s1.data⟩ : String) ∧
    priwattCleanPriceText s2 = "" := by
  constructor
  · show (⟨kkCleanPriceTextL s1.data⟩ : String) = ⟨kkPricePre s1.data⟩
    congr 1
    unfold kkCleanPriceTextL
    by_cases hnil : s1.data = []
    · rw [if_pos hnil, hnil]
      rfl
    · rw [if_neg hnil]
      dsimp only
      have hpre : ∀ c ∈ kkPricePre s1.data, isDigitC c = false :=
        fun c hc => h1 c (mem_kkPricePre hc)
      rw [kkPriceSearch_none hpre, digitRunSearch_none hpre]
  · show (⟨priwattCleanPriceTextL s2.data⟩ : String) = ⟨[]⟩
    congr 1
    unfold priwattCleanPriceTextL
    by_cases hnil : s2.data = []
    · rw [if_pos hnil]
    · rw [if_neg hnil]
      dsimp only
      have hchar : ∀ c ∈ stripL (((stripLeadMarker ['b'] s2.data).filter
          (· ≠ '€')).map (fun c => if c = ' ' then ' ' else c)),
          isDigitC c = false ∧ c ≠ '.' ∧ c ≠ ',' := by
        intro c hc
        rcases List.mem_map.mp (mem_of_mem_stripL hc) with ⟨d, hd, he⟩
        have hd3 := mem_stripLeadMarker (List.mem_filter.mp hd).1
        by_cases hnb : d = ' '
        · rw [← he, hnb]
          refine ⟨?_, ?_, ?_⟩ <;> decide
        · rw [← he, if_neg hnb]
          exact h2 d hd3
      have hfil : (stripL (((stripLeadMarker ['b'] s2.data).filter
          (· ≠ '€')).map (fun c => if c = ' ' then ' ' else c))).filter
          (fun c => isDigitC c ∨ c = '.' ∨ c = ',') = [] := by
        refine List.filter_eq_nil_iff.mpr ?_
        intro c hc
        have h3 := hchar c hc
        simp only [decide_eq_true_eq]
        rintro (hd | he | he)
        · rw [h3.1] at hd
          exact Bool.false_ne_true hd
        · exact h3.2.1 he
        · exact h3.2.2 he
      rw [hfil]
      rfl

/-- C7, witness: the amended theorem at the digit-free inputs
`"Preis auf Anfrage"` (kleineskraftwerk) and `"kostenlos"` (priwatt). -/
theorem C7_witness :
    kkCleanPriceText "Preis auf Anfrage" =
      (⟨kkPricePre "Preis auf Anfrage".data⟩ : String) ∧
    priwattCleanPriceText "kostenlos" = "" :=
  C7_theorem "Preis auf Anfrage" "kostenlos" (by decide) (by decide)

/-! ### Claim C9 -/

theorem isDigitC_ne_dot {c : Char} (h : isDigitC c = true) : c ≠ '.' :=
  fun e => absurd (e ▸ h) (by decide)

theorem isDigitC_ne_comma {c : Char} (h : isDigitC c = true) : c ≠ ',' :=
  fun e => absurd (e ▸ h) (by decide)

theorem isDigitC_ne_minus {c : Char} (h : isDigitC c = true) : c ≠ '-' :=
  fun e => absurd (e ▸ h) (by decide)

theorem digitChar_digit (d : Nat) : isDigitC (digitChar d) = true := by
  unfold digitChar
  split <;> decide

theorem natDigitsAux_digits :
    ∀ (fuel n : Nat), ∀ c ∈ natDigitsAux fuel n, isDigitC c = true := by
  intro fuel
  induction fuel with
  | zero =>
    intro n c hc
    simp [natDigitsAux] at hc
  | succ f ih =>
    intro n c hc
    cases n with
    | zero => simp [natDigitsAux] at hc
    | succ k =>
      simp only [natDigitsAux] at hc
      rcases List.mem_append.mp hc with hl | hr
      · exact ih _ c hl
      · rw [List.mem_singleton.mp hr]
        exact digitChar_digit _

theorem natDigits_digits (n : Nat) : ∀ c ∈ natDigits n, isDigitC c = true := by
  intro c hc
  unfold natDigits at hc
  by_cases h : n = 0
  · rw [if_pos h] at hc
    rw [List.mem_singleton.mp hc]
    decide
  · rw [if_neg h] at hc
    exact natDigitsAux_digits n n c hc

theorem natDigits_ne_nil (n : Nat) : natDigits n ≠ [] := by
  unfold natDigits
  by_cases h : n = 0
  · rw [if_pos h]
    simp
  · rw [if_neg h]
    rcases n with _ | k
    · exact absurd rfl h
    · simp [natDigitsAux]

theorem pad2_digits (m : Nat) : ∀ c ∈ pad2 m, isDigitC c = true := by
  intro c hc
  rcases List.mem_cons.mp hc with he | ht
  · rw [he]; exact digitChar_digit _
  · rw [List.mem_singleton.mp ht]; exact digitChar_digit _

theorem dot_not_mem_of_digits {l : List Char}
    (h : ∀ c ∈ l, isDigitC c = true) : '.' ∉ l :=
  fun hd => absurd (h '.' hd) (by decide)

theorem fmtCents_canon (a : Nat) : isCanonAmount (fmtCentsL false a) = true := by
  have he : fmtCentsL false a = natDigits (a / 100) ++ '.' :: pad2 (a % 100) := rfl
  rw [he]
  unfold isCanonAmount
  rw [splitOnChar_append_sep (dot_not_mem_of_digits (natDigits_digits _))
    (dot_not_mem_of_digits (pad2_digits _))]
  simp only [Bool.and_eq_true, List.all_eq_true, beq_iff_eq]
  refine ⟨⟨⟨?_, natDigits_digits _⟩, rfl⟩, pad2_digits _⟩
  simp [List.isEmpty_iff, natDigits_ne_nil]

theorem pyQuantize2_shape {n d : Int} {out : List Char} (hn : 0 ≤ n)
    (h : pyQuantize2 n d = some out) : isCanonAmount out = true := by
  unfold pyQuantize2 at h
  by_cases hp : 28 < (natDigits (rheND (n * 100) d).natAbs).length
  · rw [if_pos hp] at h
    exact absurd h (by simp)
  · rw [if_neg hp] at h
    have hneg : decide (n < 0) = false := decide_eq_false (not_lt.mpr hn)
    rw [← Option.some.inj h, hneg]
    exact fmtCents_canon _

theorem parseNumCore_nonneg {l : List Char} {p : Int × Int}
    (h : parseNumCore l = some p) : 0 ≤ p.1 := by
  unfold parseNumCore at h
  dsimp only at h
  split at h
  · split at h
    · exact absurd h (by simp)
    · rw [← Option.some.inj h]
      exact Int.natCast_nonneg _
  · split at h
    · exact absurd h (by simp)
    · split at h
      · exact absurd h (by simp)
      · rw [← Option.some.inj h]
        exact Int.natCast_nonneg _
  · exact absurd h (by simp)

theorem parseNum_nonneg {l : List Char} {p : Int × Int}
    (hm : '-' ∉ l) (h : parseNum l = some p) : 0 ≤ p.1 := by
  unfold parseNum at h
  dsimp only at h
  split at h
  · next r heq =>
    have : '-' ∈ stripL l := by
      rw [heq]
      exact List.mem_cons_self _ _
    exact absurd (mem_of_mem_stripL this) hm
  · next r heq => exact parseNumCore_nonneg h
  · exact parseNumCore_nonneg h

theorem kkPriceSearch_shape :
    ∀ {l m : List Char}, kkPriceSearch l = some m →
      ∃ run d1 d2, m = run ++ ',' :: [d1, d2] ∧
        (∀ c ∈ run, isDigitC c = true ∨ c = '.') ∧
        (∃ h0 ∈ run, isDigitC h0 = true) ∧
        isDigitC d1 = true ∧ isDigitC d2 = true := by
  intro l
  induction l with
  | nil =>
    intro m h
    simp [kkPriceSearch] at h
  | cons c cs ih =>
    intro m hm
    unfold kkPriceSearch at hm
    by_cases hd : isDigitC c = true
    · rw [if_pos hd] at hm
      dsimp only at hm
      split at hm
      · next d1 d2 rest heq =>
        by_cases hdd : isDigitC d1 = true ∧ isDigitC d2 = true
        · rw [if_pos hdd] at hm
          refine ⟨(c :: cs).takeWhile (fun d => isDigitC d ∨ d = '.'), d1, d2,
            (Option.some.inj hm).symm, ?_, ?_, hdd.1, hdd.2⟩
          · intro e he
            have := List.mem_takeWhile_imp he
            exact (decide_eq_true_eq.mp this)
          · refine ⟨c, ?_, hd⟩
            have hpc : (fun d => decide (isDigitC d = true ∨ d = '.')) c = true :=
              decide_eq_true (Or.inl hd)
            have hcons : List.takeWhile
                (fun d => decide (isDigitC d = true ∨ d = '.')) (c :: cs) =
                c :: List.takeWhile
                  (fun d => decide (isDigitC d = true ∨ d = '.')) cs :=
              List.takeWhile_cons_of_pos hpc
            rw [hcons]
            exact List.mem_cons_self _ _
        · rw [if_neg hdd] at hm
          exact ih hm
      · exact ih hm
    · rw [if_neg hd] at hm
      exact ih hm

theorem dotNormalize_shape {run : List Char} {d1 d2 : Char}
    (hrun : ∀ c ∈ run, isDigitC c = true ∨ c = '.')
    (hex : ∃ h0 ∈ run, isDigitC h0 = true)
    (h1 : isDigitC d1 = true) (h2 : isDigitC d2 = true) :
    ∃ D, dotNormalize (run ++ ',' :: [d1, d2]) = D ++ '.' :: [d1, d2] ∧
      D ≠ [] ∧ ∀ c ∈ D, isDigitC c = true := by
  have hDdig : ∀ c ∈ run.filter (fun x => decide (x ≠ '.')), isDigitC c = true := by
    intro c hc
    have hm := List.mem_filter.mp hc
    rcases hrun c hm.1 with hdig | hdot
    · exact hdig
    · exact absurd hdot (decide_eq_true_eq.mp hm.2)
  refine ⟨run.filter (fun x => decide (x ≠ '.')), ?_, ?_, hDdig⟩
  · unfold dotNormalize
    rw [List.filter_append]
    have hcomma : List.filter (fun x => decide (x ≠ '.')) (',' :: [d1, d2]) =
        ',' :: [d1, d2] := by
      refine List.filter_eq_self.mpr ?_
      intro a ha
      rcases List.mem_cons.mp ha with he | ht
      · rw [he]; decide
      · rcases List.mem_cons.mp ht with he2 | ht2
        · rw [he2]; exact decide_eq_true (isDigitC_ne_dot h1)
        · rw [List.mem_singleton.mp ht2]
          exact decide_eq_true (isDigitC_ne_dot h2)
    rw [hcomma, List.map_append]
    have hmap1 : (run.filter (fun x => decide (x ≠ '.'))).map
        (fun c => if c = ',' then '.' else c) =
        run.filter (fun x => decide (x ≠ '.')) :=
      map_eq_self_of_fixed (fun c hc => if_neg (isDigitC_ne_comma (hDdig c hc)))
    rw [hmap1]
    have hmap2 : (',' :: [d1, d2]).map (fun c => if c = ',' then '.' else c) =
        '.' :: [d1, d2] := by
      simp [if_neg (isDigitC_ne_comma h1), if_neg (isDigitC_ne_comma h2)]
    rw [hmap2]
  · rcases hex with ⟨h0, hh0, hdig0⟩
    exact List.ne_nil_of_mem (List.mem_filter.mpr
      ⟨hh0, decide_eq_true (isDigitC_ne_dot hdig0)⟩)

theorem canon_fallback {D : List Char} {d1 d2 : Char} (hDne : D ≠ [])
    (hDdig : ∀ c ∈ D, isDigitC c = true)
    (h1 : isDigitC d1 = true) (h2 : isDigitC d2 = true) :
    isCanonAmount (D ++ '.' :: [d1, d2]) = true := by
  unfold isCanonAmount
  have hB : '.' ∉ [d1, d2] := by
    intro hd
    rcases List.mem_cons.mp hd with he | ht
    · exact isDigitC_ne_dot h1 he.symm
    · exact isDigitC_ne_dot h2 (List.mem_singleton.mp ht).symm
  rw [splitOnChar_append_sep (dot_not_mem_of_digits hDdig) hB]
  simp only [Bool.and_eq_true, List.all_eq_true, beq_iff_eq]
  refine ⟨⟨⟨?_, hDdig⟩, rfl⟩, ?_⟩
  · simp [List.isEmpty_iff, hDne]
  · intro c hc
    rcases List.mem_cons.mp hc with he | ht
    · rw [he]; exact h1
    · rw [List.mem_singleton.mp ht]; exact h2

/-- C9, counterexample: the raw string `"1,23 und 4,56"` contains the
decimal-comma pattern, yet the priwatt normaliser concatenates all numeric
characters first and returns `"1.234.56"` — two decimal points, not the
claimed canonical single-point two-fraction-digit shape. -/
theorem C9_counterexample :
    (kkPriceSearch "1,23 und 4,56".data).isSome = true ∧
    priwattCleanPriceText "1,23 und 4,56" = "1.234.56" ∧
    isCanonAmount (priwattCleanPriceText "1,23 und 4,56").data = false := by
  refine ⟨?_, ?_, ?_⟩ <;> decide

/-- C9, amended: the claim holds for the kleineskraftwerk normaliser — for
every input in which its decimal-comma regex finds a match (after marker and
euro-sign stripping), the result has exactly one decimal point, a non-empty
all-digit integer part and exactly two fractional digits; the priwatt
normaliser does not satisfy this, as it first concatenates every digit, dot
and comma of the whole string. -/
theorem C9_theorem (s : String)
    (h : (kkPriceSearch (kkPricePre s.data)).isSome = true) :
    isCanonAmount (kkCleanPriceText s).data = true := by
  have hnil : s.data ≠ [] := by
    intro he
    rw [he] at h
    exact absurd h (by decide)
  show isCanonAmount (kkCleanPriceTextL s.data) = true
  unfold kkCleanPriceTextL
  rw [if_neg hnil]
  dsimp only
  rcases hs : kkPriceSearch (kkPricePre s.data) with _ | m
  · rw [hs] at h
    exact absurd h (by decide)
  · dsimp only
    rcases kkPriceSearch_shape hs with ⟨run, d1, d2, hm, hrun, hex, h1, h2⟩
    subst hm
    rcases dotNormalize_shape hrun hex h1 h2 with ⟨D, hD, hDne, hDdig⟩
    rw [hD]
    have hshape := canon_fallback hDne hDdig h1 h2
    rcases hp : parseNum (D ++ '.' :: [d1, d2]) with _ | p
    · exact hshape
    · dsimp only
      have hminus : '-' ∉ D ++ '.' :: [d1, d2] := by
        intro hmm
        rcases List.mem_append.mp hmm with hl | hr
        · exact isDigitC_ne_minus (hDdig _ hl) rfl
        · rcases List.mem_cons.mp hr with he | ht
          · exact absurd he.symm (by decide)
          · rcases List.mem_cons.mp ht with he2 | ht2
            · exact isDigitC_ne_minus h1 he2.symm
            · exact isDigitC_ne_minus h2 (List.mem_singleton.mp ht2).symm
      have hnn : 0 ≤ p.1 := parseNum_nonneg hminus hp
      rcases hq : pyQuantize2 p.1 p.2 with _ | out
      · exact hshape
      · exact pyQuantize2_shape hnn hq

/-- C9, witness: the amended theorem at `"ab 1.199,00 €"`, whose normalised
result `"1199.00"` is canonical. -/
theorem C9_witness :
    isCanonAmount (kkCleanPriceText "ab 1.199,00 €").data = true :=
  C9_theorem "ab 1.199,00 €" (by decide)

end AshSpider
